import Mathlib

/-!
Shallow embedding of `src/bytesearch.py` (a terminal PDF-content search tool).

Strings from the Python program are modelled as `List Char`.  Regular
expressions are modelled operationally: the result-line pattern
`^(.*?\.pdf):(\d+):(.*)$` (IGNORECASE) becomes an executable scan that tries
the shortest prefix ending in ".pdf" (case-insensitively) such that the rest
of the line is `:<digits>:<text>`, and the highlight pattern
`re.escape(term)` (IGNORECASE) becomes a left-to-right scan for
non-overlapping case-insensitive literal occurrences, exactly the semantics
of `re.finditer` on an escaped literal.  External effects (the `pdfgrep`
subprocess, the filesystem, `subprocess.Popen`) are inputs: a per-batch
`BatchOutcome` (exception, or exit code plus stdout lines), an existence
predicate `List Char → Bool`, and a `LaunchOutcome`.  Wall-clock fields
(`search_start`, redraw timestamps) are not modelled.  Recursions that the
source performs with slicing loops are written with an explicit fuel
argument that bounds the number of loop iterations (always sufficient, the
fuel is the length of the scanned list) so that every definition reduces in
the kernel.
-/

/-- Lower-casing of a Python string, for the IGNORECASE flags. -/
def lower (l : List Char) : List Char := l.map Char.toLower

/-- Case-insensitive equality of two strings. -/
def ciEq (a b : List Char) : Bool := lower a == lower b

/-- Does `text` start with the literal `term`, case-insensitively?  This is
what one step of `re.finditer(re.escape(term), text, re.IGNORECASE)` tests. -/
def matchesHere (term text : List Char) : Bool := ciEq term (text.take term.length)

/-- There is a case-insensitive literal occurrence of `term` at index `i` of
`text`. -/
def occursAt (term text : List Char) (i : Nat) : Bool := matchesHere term (text.drop i)

/-- Python's `str.strip()` whitespace class. -/
def isPySpace (c : Char) : Bool :=
  c == ' ' || c == '\t' || c == '\n' || c == '\x0b' || c == '\x0c' || c == '\r'

/-- Python's `str.strip()`. -/
def pyStrip (l : List Char) : List Char :=
  ((l.dropWhile isPySpace).reverse.dropWhile isPySpace).reverse

/-- Python's `os.path.basename`: the part after the last slash. -/
def basename (l : List Char) : List Char := (l.reverse.takeWhile (fun c => c != '/')).reverse

/-- Python's `os.path.join(dir, f)` for a directory not ending in a slash. -/
def joinPath (d f : List Char) : List Char := d ++ '/' :: f

/-- Numeric value of a digit string, as computed by Python's `int`. -/
def natFromDigits (ds : List Char) : Nat :=
  ds.foldl (fun n c => n * 10 + (c.toNat - '0'.toNat)) 0

/-- Python's `f.lower().endswith('.pdf')`, also the check of the
`(.*?\.pdf)` group of the result-line pattern. -/
def endsWithPdfCI (l : List Char) : Bool :=
  (l.drop (l.length - 4)).map Char.toLower == ".pdf".toList

/- Configuration constants from the top of `bytesearch.py`. -/

/-- Configured search directory. -/
def PDF_DIRECTORY : List Char := "/Users/stewart/BYTE".toList

/-- Configured viewer executable name. -/
def PDF_VIEWER : List Char := "evince".toList

/-- Number of files per external-tool invocation. -/
def BATCH_SIZE : Nat := 10

/-- Result cap of the store. -/
def MAX_RESULTS : Nat := 500

/-- Matching the tail `:(\d+):(.*)$` of the result-line pattern: a colon, a
maximal nonempty digit run, a colon, then the text field.  (Backtracking
inside `(\d+)` cannot help: every shorter digit run is followed by a digit,
not a colon.) -/
def matchTail : List Char → Option (Nat × List Char)
  | ':' :: r =>
    let ds := r.takeWhile Char.isDigit
    let r2 := r.dropWhile Char.isDigit
    if ds.isEmpty then none
    else
      match r2 with
      | ':' :: t => some (natFromDigits ds, t)
      | _ => none
  | _ => none

/-- Scan for the lazy group `(.*?\.pdf)`: try the current prefix, else move
one character from the rest to the prefix.  Returns the path group, the
parsed line number and the text field. -/
def parseLineAux : List Char → List Char → Option (List Char × Nat × List Char)
  | _, [] => none
  | pre, c :: r =>
    match (if endsWithPdfCI pre then matchTail (c :: r) else none) with
    | some (n, t) => some (pre, n, t)
    | none => parseLineAux (pre ++ [c]) r

/-- One raw output line against `^(.*?\.pdf):(\d+):(.*)$` with IGNORECASE,
as in `process_results`.  `none` means the line is skipped. -/
def parseLine (line : List Char) : Option (List Char × Nat × List Char) :=
  parseLineAux [] line

/-- Start indices of the matches of `re.finditer(re.escape(term), text,
re.IGNORECASE)`: leftmost, non-overlapping, each of length `term.length`;
after a zero-width match the scanner advances by one.  `fuel` bounds the
scan steps; `text.length` is always enough. -/
def findOccsF (term : List Char) : Nat → List Char → Nat → List Nat
  | _, [], pos => if term.isEmpty then [pos] else []
  | 0, _ :: _, _ => []
  | fuel + 1, c :: rest, pos =>
    if matchesHere term (c :: rest) then
      pos :: findOccsF term fuel ((c :: rest).drop (max term.length 1)) (pos + max term.length 1)
    else
      findOccsF term fuel rest (pos + 1)

/-- All match start positions of the escaped literal `term` in `text`. -/
def findOccs (term text : List Char) : List Nat := findOccsF term text.length text 0

/-- The span-building loop of `process_results`: for each match at `i`,
append `text[last:i]` non-highlighted and `text[i:i+tlen]` highlighted; after
the loop append the non-highlighted tail `text[last:]`. -/
def mkParts (text : List Char) (tlen : Nat) : List Nat → Nat → List (List Char × Bool)
  | [], last => [(text.drop last, false)]
  | i :: rest, last =>
    ((text.drop last).take (i - last), false) ::
      ((text.drop i).take tlen, true) :: mkParts text tlen rest (i + tlen)

/-- The `parts` list `process_results` builds for one matched line. -/
def process_parts (term text : List Char) : List (List Char × Bool) :=
  mkParts text term.length (findOccs term text) 0

/-- Concatenation of the span texts. -/
def partsConcat (ps : List (List Char × Bool)) : List Char := (ps.map Prod.fst).flatten

/-- The highlight flag covering position `j` of the reconstructed line. -/
def spanFlagAt : List (List Char × Bool) → Nat → Bool
  | [], _ => false
  | (s, b) :: rest, j => if j < s.length then b else spanFlagAt rest (j - s.length)

/-- One stored match: the record appended by `process_results`. -/
structure MatchRecord where
  filename : List Char
  line_num : Nat
  parts : List (List Char × Bool)
  full_path : Option (List Char)
  deriving DecidableEq

/-- The shared mutable fields of the `PDFSearch` object (the result store).
`queue` models the size of the notification `Queue`; `search_start` (a
wall-clock timestamp) is not modelled. -/
structure SearchState where
  results : List MatchRecord
  stop_event : Bool
  processed_files : Nat
  total_files : Nat
  file_paths : List (List Char × List Char)
  evince_installed : Bool
  queue : Nat
  deriving DecidableEq

/-- Lookup in the `file_paths` dict; with duplicate basenames the later
binding wins, as in a Python dict comprehension. -/
def lookupFP (m : List (List Char × List Char)) (k : List Char) : Option (List Char) :=
  (m.reverse.find? (fun kv => kv.1 == k)).map (fun kv => kv.2)

/-- Handling of one raw output line by `process_results`, with the result
cap as a parameter (`maxR` is `MAX_RESULTS` in the source): if the line
matches the pattern and the store is below the cap, build the record and
append it, then put a token on the notification queue. -/
def processLineP (maxR : Nat) (st : SearchState) (term line : List Char) : SearchState :=
  match parseLine line with
  | none => st
  | some (pth, n, t) =>
    if st.results.length < maxR then
      let filename := basename pth
      let text := pyStrip t
      { st with
          results := st.results ++
            [{ filename := filename, line_num := n,
               parts := process_parts term text,
               full_path := lookupFP st.file_paths filename }],
          queue := st.queue + 1 }
    else st

/-- `process_results` over the lines of the raw output, cap as parameter. -/
def processResultsP (maxR : Nat) (st : SearchState) (term : List Char)
    (lines : List (List Char)) : SearchState :=
  lines.foldl (fun s line => processLineP maxR s term line) st

/-- `process_results` with the configured cap. -/
def process_results (st : SearchState) (term : List Char)
    (lines : List (List Char)) : SearchState :=
  processResultsP MAX_RESULTS st term lines

/-- Outcome of one `subprocess.run` of the external tool: an exception
(invocation failure or timeout), or an exit code together with the lines of
captured stdout.  Stdout is truthy in Python iff it has at least one line. -/
inductive BatchOutcome where
  | err : BatchOutcome
  | ok : Int → List (List Char) → BatchOutcome
  deriving DecidableEq

/-- The body of one iteration of `search_worker`'s batch loop, after the
stop check: on an exception nothing happens (the `except` branch continues);
otherwise the output is parsed when the exit code is 0 and stdout nonempty,
and then `processed_files` is incremented by the batch size. -/
def attempt_batch (term : List Char) (st : SearchState) (batch : List (List Char)) :
    BatchOutcome → SearchState
  | .err => st
  | .ok rc out =>
    let st1 := if rc = 0 ∧ out ≠ [] then process_results st term out else st
    { st1 with processed_files := st1.processed_files + batch.length }

/-- The batch loop of `search_worker`: at each batch boundary check
`stop_event` and break if set, else attempt the batch and continue. -/
def search_worker (term : List Char) :
    SearchState → List (List (List Char) × BatchOutcome) → SearchState
  | st, [] => st
  | st, (b, oc) :: rest =>
    if st.stop_event then st
    else search_worker term (attempt_batch term st b oc) rest

/-- Contiguous batches of at most `B` files (`files[i:i+BATCH_SIZE]` in the
source loop); `fuel` bounds the iterations, `files.length` is enough for any
`B ≥ 1`. -/
def batchesF : Nat → Nat → List (List Char) → List (List (List Char))
  | _, _, [] => []
  | 0, _, _ :: _ => []
  | fuel + 1, B, f :: fs =>
    ((f :: fs).take B) :: batchesF fuel B ((f :: fs).drop B)

/-- The batches `search_worker` iterates over. -/
def batches (B : Nat) (files : List (List Char)) : List (List (List Char)) :=
  batchesF files.length B files

/-- `get_pdf_files` with the directory listing as input: filter names ending
in ".pdf" case-insensitively, join with the directory, record the count in
`total_files` and the basename-to-path dict in `file_paths`. -/
def get_pdf_files (listing : List (List Char)) (st : SearchState) :
    SearchState × List (List Char) :=
  let files := (listing.filter endsWithPdfCI).map (fun f => joinPath PDF_DIRECTORY f)
  ({ st with
      total_files := files.length,
      file_paths := files.map (fun p => (basename p, p)) }, files)

/-- `start_search`: reset the store (results, counter, stop flag), enumerate
the files, and report whether a worker was started (the file list was
nonempty).  The returned list is what the worker thread is given. -/
def start_search (listing : List (List Char)) (st : SearchState) :
    SearchState × List (List Char) × Bool :=
  let st1 := { st with results := [], processed_files := 0, stop_event := false }
  let p := get_pdf_files listing st1
  (p.1, p.2, decide (p.2 ≠ []))

/-- `stop_search`. -/
def stop_search (st : SearchState) : SearchState := { st with stop_event := true }

/-- An operation on the shared store, for interleaving the foreground loop
with a worker that may still be in flight: `stop_op`/`start_op` are the
foreground's calls, `worker_batch` is one iteration of some worker's batch
loop (with its stop check). -/
inductive StoreOp where
  | stop_op : StoreOp
  | start_op : List (List Char) → StoreOp
  | worker_batch : List Char → List (List Char) → BatchOutcome → StoreOp
  deriving DecidableEq

/-- Effect of one interleaved operation on the shared store. -/
def applyOp (st : SearchState) : StoreOp → SearchState
  | .stop_op => stop_search st
  | .start_op listing => (start_search listing st).1
  | .worker_batch term b oc =>
    if st.stop_event then st else attempt_batch term st b oc

/-- Default record for in-range list indexing (never used when the index
guard of `open_result` has passed). -/
def default_record : MatchRecord :=
  { filename := [], line_num := 0, parts := [], full_path := none }

/-- Whether `subprocess.Popen` itself raises. -/
inductive LaunchOutcome where
  | ok : LaunchOutcome
  | fail : LaunchOutcome
  deriving DecidableEq

/-- `open_result`: guard the index, reject a missing/empty stored path,
check existence on disk (`fsEx`), then launch the viewer (outcome `lo`).
The source never mutates the searcher's state here; the state is returned
unchanged alongside the `(success, message)` pair. -/
def open_result (fsEx : List Char → Bool) (lo : LaunchOutcome)
    (st : SearchState) (idx : Int) : SearchState × Bool × List Char :=
  if idx < 0 ∨ (st.results.length : Int) ≤ idx then
    (st, false, "Invalid selection".toList)
  else
    let r := st.results.getD idx.toNat default_record
    let p := r.full_path.getD []
    if p = [] then (st, false, "No file path found".toList)
    else if fsEx p = false then (st, false, "File not found: ".toList ++ p)
    else
      match lo with
      | .ok =>
        if PDF_VIEWER = "evince".toList ∧ st.evince_installed then
          (st, true, "Opened in Evince (page ".toList ++ Nat.toDigits 10 r.line_num ++ ")".toList)
        else (st, true, "Opened with default viewer".toList)
      | .fail => (st, false, "Error opening PDF: ".toList)

/-- View state of the results-navigation loop of `display_interface`:
selection, whether still in results mode, and the transient status line. -/
structure BrowseState where
  current_line : Int
  in_results_mode : Bool
  status : Option (List Char)
  deriving DecidableEq

/-- The ENTER branch of the results loop: when the results list is nonempty
and the selection is in range, call `open_result`; on failure show the
message briefly.  Mode and selection are not touched. -/
def enter_key (fsEx : List Char → Bool) (lo : LaunchOutcome)
    (st : SearchState) (bs : BrowseState) : SearchState × BrowseState :=
  if st.results ≠ [] ∧ 0 ≤ bs.current_line ∧ bs.current_line < (st.results.length : Int) then
    let r := open_result fsEx lo st bs.current_line
    if r.2.1 then (r.1, bs) else (r.1, { bs with status := some r.2.2 })
  else (st, bs)

/-- The navigation keys of the results loop. -/
inductive NavKey where
  | up : NavKey
  | down : NavKey
  | ppage : NavKey
  | npage : NavKey
  | home : NavKey
  | endk : NavKey
  deriving DecidableEq

/-- One navigation key applied to `current_line`, with `count` results and
page size `vis` (`visible_lines` in the source): the Up/Down guards, the
`max`/`min` clamps of PgUp/PgDn, and the `h`/`e` jumps. -/
def nav_step (count : Nat) (vis : Int) (cur : Int) : NavKey → Int
  | .home => 0
  | .endk => (count : Int) - 1
  | .up => if 0 < cur then cur - 1 else cur
  | .down => if cur < (count : Int) - 1 then cur + 1 else cur
  | .ppage => max 0 (cur - vis)
  | .npage => min ((count : Int) - 1) (cur + vis)

/-- A sequence of navigation keys applied in order. -/
def nav_run (count : Nat) (vis : Int) (keys : List NavKey) (cur : Int) : Int :=
  keys.foldl (nav_step count vis) cur

/-- A fresh `PDFSearch.__init__` state (with Evince installed). -/
def initState : SearchState :=
  { results := [], stop_event := false, processed_files := 0, total_files := 0,
    file_paths := [], evince_installed := true, queue := 0 }

/-- The state after running the first `n` batch attempts of one session
started by `start_search`, the batches paired with their outcomes. -/
def session_run (listing : List (List Char)) (st : SearchState) (term : List Char)
    (outcomes : List BatchOutcome) (n : Nat) : SearchState :=
  search_worker term (start_search listing st).1
    (((batches BATCH_SIZE (start_search listing st).2.1).zip outcomes).take n)

/-- Well-formedness of a list of match start positions: each is at or after
the scan position, each match of length `tlen` fits inside the text length
`bound`, and successive matches do not overlap. -/
def occsOK (tlen bound : Nat) : Nat → List Nat → Prop
  | _, [] => True
  | pos, i :: rest => pos ≤ i ∧ i + tlen ≤ bound ∧ occsOK tlen bound (i + tlen) rest

/-- A match of `term` at the start of `text` needs `term` to fit in `text`. -/
theorem matchesHere_length {term text : List Char} (h : matchesHere term text = true) :
    term.length ≤ text.length := by
  have h' : lower term = lower (text.take term.length) := by
    unfold matchesHere ciEq at h
    exact beq_iff_eq.mp h
  have hl := congrArg List.length h'
  simp only [lower, List.length_map, List.length_take] at hl
  omega

/-- Only the empty literal matches at the start of the empty text. -/
theorem matchesHere_nil {term : List Char} (h : matchesHere term [] = true) : term = [] := by
  simp [matchesHere, ciEq, lower] at h
  exact h

/-- A well-formed occurrence list stays well-formed from an earlier scan
position. -/
theorem occsOK_mono {tlen bound : Nat} {l : List Nat} {p q : Nat}
    (h : occsOK tlen bound p l) (hqp : q ≤ p) : occsOK tlen bound q l := by
  cases l with
  | nil => trivial
  | cons i rest =>
    simp only [occsOK] at h ⊢
    exact ⟨le_trans hqp h.1, h.2.1, h.2.2⟩

/-- Every member of a well-formed occurrence list is at or after the scan
position and fits in the text. -/
theorem occsOK_mem {tlen bound : Nat} :
    ∀ {l : List Nat} {p x : Nat}, occsOK tlen bound p l → x ∈ l →
      p ≤ x ∧ x + tlen ≤ bound := by
  intro l
  induction l with
  | nil => intro p x _ hx; cases hx
  | cons i rest ih =>
    intro p x h hx
    simp only [occsOK] at h
    rcases List.mem_cons.mp hx with rfl | hx'
    · exact ⟨h.1, h.2.1⟩
    · have := ih h.2.2 hx'
      exact ⟨by omega, this.2⟩

/-- The scanner emits a well-formed occurrence list. -/
theorem findOccsF_chain (term full : List Char) :
    ∀ fuel text pos, text = full.drop pos → pos ≤ full.length →
      occsOK term.length full.length pos (findOccsF term fuel text pos) := by
  intro fuel
  induction fuel with
  | zero =>
    intro text pos htext hpos
    cases text with
    | nil =>
      simp only [findOccsF]
      split
      · next hterm =>
        refine ⟨le_refl _, ?_, trivial⟩
        have : term.length = 0 := by simpa [List.isEmpty_iff] using hterm
        omega
      · trivial
    | cons c r => simp only [findOccsF]; trivial
  | succ fuel ih =>
    intro text pos htext hpos
    cases text with
    | nil =>
      simp only [findOccsF]
      split
      · next hterm =>
        refine ⟨le_refl _, ?_, trivial⟩
        have : term.length = 0 := by simpa [List.isEmpty_iff] using hterm
        omega
      · trivial
    | cons c r =>
      have hlen : (c :: r).length = full.length - pos := by
        rw [htext, List.length_drop]
      simp only [findOccsF]
      split
      · next hmatch =>
        have hfit : term.length ≤ (c :: r).length := matchesHere_length hmatch
        have hstep : max term.length 1 ≤ (c :: r).length := by
          simp only [List.length_cons] at hfit ⊢
          omega
        refine ⟨le_refl _, by omega, ?_⟩
        have hrec := ih ((c :: r).drop (max term.length 1)) (pos + max term.length 1)
          (by rw [htext, List.drop_drop, Nat.add_comm]) (by omega)
        exact occsOK_mono hrec (by omega)
      · next hmatch =>
        have hr : r = full.drop (pos + 1) := by
          have : (c :: r).tail = (full.drop pos).tail := by rw [htext]
          simpa [List.tail_drop] using this
        have hpos1 : pos + 1 ≤ full.length := by
          simp only [List.length_cons] at hlen
          omega
        exact occsOK_mono (ih r (pos + 1) hr hpos1) (by omega)

/-- Splitting a suffix of `text` at a later position `b` and re-joining the
two pieces gives back the suffix. -/
theorem drop_take_drop (text : List Char) (a b : Nat) (hab : a ≤ b) :
    (text.drop a).take (b - a) ++ text.drop b = text.drop a := by
  have hb : text.drop b = (text.drop a).drop (b - a) := by
    rw [List.drop_drop]
    congr 1
    omega
  rw [hb]
  exact List.take_append_drop _ _

/-- Concatenating the spans built from a well-formed occurrence list
reconstructs the text from the last committed position. -/
theorem mkParts_concat (text : List Char) (tlen : Nat) :
    ∀ (occs : List Nat) (last bound : Nat), occsOK tlen bound last occs →
      partsConcat (mkParts text tlen occs last) = text.drop last := by
  intro occs
  induction occs with
  | nil => intro last bound _; simp [mkParts, partsConcat]
  | cons i rest ih =>
    intro last bound h
    simp only [occsOK] at h
    obtain ⟨h1, h2, h3⟩ := h
    simp only [mkParts, partsConcat, List.map_cons, List.flatten_cons]
    have htail : (((mkParts text tlen rest (i + tlen)).map Prod.fst)).flatten =
        text.drop (i + tlen) := ih (i + tlen) bound h3
    rw [htail]
    have e2 : (text.drop i).take tlen ++ text.drop (i + tlen) = text.drop i := by
      have := drop_take_drop text i (i + tlen) (by omega)
      rw [show i + tlen - i = tlen by omega] at this
      exact this
    have e1 : (text.drop last).take (i - last) ++ text.drop i = text.drop last :=
      drop_take_drop text last i h1
    rw [e2, e1]

/-- Position `last + j` of the reconstructed line falls in a highlighted
span exactly when it lies inside one of the (well-formed) occurrences the
spans were built from. -/
theorem mkParts_flag (text : List Char) (tlen : Nat) :
    ∀ (occs : List Nat) (last j : Nat), occsOK tlen text.length last occs →
      (spanFlagAt (mkParts text tlen occs last) j = true ↔
        ∃ x, x ∈ occs ∧ x ≤ last + j ∧ last + j < x + tlen) := by
  intro occs
  induction occs with
  | nil =>
    intro last j _
    simp [mkParts, spanFlagAt]
  | cons i rest ih =>
    intro last j h
    simp only [occsOK] at h
    obtain ⟨h1, h2, h3⟩ := h
    have hs1 : ((text.drop last).take (i - last)).length = i - last := by
      simp only [List.length_take, List.length_drop]
      omega
    have hs2 : ((text.drop i).take tlen).length = tlen := by
      simp only [List.length_take, List.length_drop]
      omega
    simp only [mkParts, spanFlagAt, hs1, hs2]
    by_cases hj1 : j < i - last
    · rw [if_pos hj1]
      simp only [Bool.false_eq_true, false_iff]
      rintro ⟨x, hx, hx1, hx2⟩
      rcases List.mem_cons.mp hx with rfl | hx'
      · omega
      · have := (occsOK_mem h3 hx').1
        omega
    · by_cases hj2 : j - (i - last) < tlen
      · rw [if_neg hj1, if_pos hj2]
        simp only [true_iff]
        exact ⟨i, List.mem_cons_self _ _, by omega, by omega⟩
      · rw [if_neg hj1, if_neg hj2]
        rw [ih (i + tlen) (j - (i - last) - tlen) h3]
        constructor
        · rintro ⟨x, hx, hx1, hx2⟩
          exact ⟨x, List.mem_cons_of_mem _ hx, by omega, by omega⟩
        · rintro ⟨x, hx, hx1, hx2⟩
          rcases List.mem_cons.mp hx with rfl | hx'
          · omega
          · exact ⟨x, hx', by omega, by omega⟩

/-- Every position the scanner emits carries a case-insensitive literal
occurrence of the query. -/
theorem findOccsF_sound (term full : List Char) :
    ∀ fuel text pos i, text = full.drop pos → i ∈ findOccsF term fuel text pos →
      occursAt term full i = true := by
  intro fuel
  induction fuel with
  | zero =>
    intro text pos i htext hi
    cases text with
    | nil =>
      simp only [findOccsF] at hi
      split at hi
      · next hterm =>
        have hterm' : term = [] := by simpa [List.isEmpty_iff] using hterm
        have : i = pos := by simpa using hi
        subst this
        subst hterm'
        simp [occursAt, matchesHere, ciEq, lower]
      · simp at hi
    | cons c r => simp [findOccsF] at hi
  | succ fuel ih =>
    intro text pos i htext hi
    cases text with
    | nil =>
      simp only [findOccsF] at hi
      split at hi
      · next hterm =>
        have hterm' : term = [] := by simpa [List.isEmpty_iff] using hterm
        have : i = pos := by simpa using hi
        subst this
        subst hterm'
        simp [occursAt, matchesHere, ciEq, lower]
      · simp at hi
    | cons c r =>
      simp only [findOccsF] at hi
      split at hi
      · next hmatch =>
        rcases List.mem_cons.mp hi with rfl | hi'
        · rw [occursAt, ← htext]
          exact hmatch
        · exact ih _ (pos + max term.length 1) i
            (by rw [htext, List.drop_drop, Nat.add_comm]) hi'
      · next hmatch =>
        have hr : r = full.drop (pos + 1) := by
          have : (c :: r).tail = (full.drop pos).tail := by rw [htext]
          simpa [List.tail_drop] using this
        exact ih r (pos + 1) i hr hi

/-- Every case-insensitive literal occurrence of a nonempty query at or
after the scan position starts inside one of the emitted matches. -/
theorem findOccsF_complete (term full : List Char) (hterm : term ≠ []) :
    ∀ fuel text pos p, text = full.drop pos → text.length ≤ fuel →
      pos ≤ p → occursAt term full p = true →
      ∃ i, i ∈ findOccsF term fuel text pos ∧ i ≤ p ∧ p < i + term.length := by
  have hdropnil : ∀ pos p : Nat, full.drop pos = [] → pos ≤ p →
      occursAt term full p = true → False := by
    intro pos p hnil hpos hocc
    have hfp : full.drop p = [] := by
      have : full.drop p = (full.drop pos).drop (p - pos) := by
        rw [List.drop_drop]
        congr 1
        omega
      rw [this, hnil, List.drop_nil]
    rw [occursAt, hfp] at hocc
    exact hterm (matchesHere_nil hocc)
  intro fuel
  induction fuel with
  | zero =>
    intro text pos p htext hfuel hpos hocc
    have htnil : text = [] := List.eq_nil_of_length_eq_zero (Nat.le_zero.mp hfuel)
    exact absurd hocc (by intro h; exact hdropnil pos p (by rw [← htext, htnil]) hpos h)
  | succ fuel ih =>
    intro text pos p htext hfuel hpos hocc
    cases text with
    | nil =>
      exact absurd hocc (by intro h; exact hdropnil pos p (by rw [← htext]) hpos h)
    | cons c r =>
      have htlen : 1 ≤ term.length := List.length_pos.mpr hterm
      have hstep : max term.length 1 = term.length := by omega
      simp only [findOccsF]
      split
      · next hmatch =>
        by_cases hp : p < pos + term.length
        · exact ⟨pos, List.mem_cons_self _ _, hpos, hp⟩
        · have hfit : term.length ≤ (c :: r).length := matchesHere_length hmatch
          have hrec := ih ((c :: r).drop (max term.length 1)) (pos + max term.length 1) p
            (by rw [htext, List.drop_drop, Nat.add_comm])
            (by simp only [List.length_drop]; simp only [List.length_cons] at hfuel ⊢; omega)
            (by omega) hocc
          obtain ⟨x, hx, hx1, hx2⟩ := hrec
          exact ⟨x, List.mem_cons_of_mem _ hx, hx1, hx2⟩
      · next hmatch =>
        have hppos : pos + 1 ≤ p := by
          rcases Nat.lt_or_ge pos p with h | h
          · omega
          · exfalso
            have : p = pos := by omega
            subst this
            rw [occursAt, ← htext] at hocc
            exact hmatch hocc
        have hr : r = full.drop (pos + 1) := by
          have : (c :: r).tail = (full.drop pos).tail := by rw [htext]
          simpa [List.tail_drop] using this
        exact ih r (pos + 1) p hr
          (by simp only [List.length_cons] at hfuel; omega) hppos hocc

/-- The spans of one line concatenate to the (stripped) line text. -/
theorem process_parts_concat (term text : List Char) :
    partsConcat (process_parts term text) = text := by
  have hchain := findOccsF_chain term text text.length text 0 (by simp) (by simp)
  have h := mkParts_concat text term.length (findOccs term text) 0 text.length hchain
  simpa [process_parts, findOccs] using h

/-- A position of the line is highlighted exactly when it lies inside one of
the scanner's matches. -/
theorem process_parts_flag (term text : List Char) (j : Nat) :
    spanFlagAt (process_parts term text) j = true ↔
      ∃ x, x ∈ findOccs term text ∧ x ≤ j ∧ j < x + term.length := by
  have hchain := findOccsF_chain term text text.length text 0 (by simp) (by simp)
  have h := mkParts_flag text term.length (findOccs term text) 0 j hchain
  simpa [process_parts, findOccs] using h

/-- Scanner matches are occurrences. -/
theorem findOccs_sound (term text : List Char) (i : Nat) (h : i ∈ findOccs term text) :
    occursAt term text i = true :=
  findOccsF_sound term text text.length text 0 i (by simp) h

/-- Occurrences of a nonempty query start inside some scanner match. -/
theorem findOccs_complete (term text : List Char) (hterm : term ≠ []) (p : Nat)
    (h : occursAt term text p = true) :
    ∃ i, i ∈ findOccs term text ∧ i ≤ p ∧ p < i + term.length :=
  findOccsF_complete term text hterm text.length text 0 p (by simp) (le_refl _)
    (Nat.zero_le _) h

/-- With no occurrence anywhere, the scanner finds nothing. -/
theorem findOccs_nil (term text : List Char) (h : ∀ i, occursAt term text i = false) :
    findOccs term text = [] := by
  cases hx : findOccs term text with
  | nil => rfl
  | cons a l =>
    have hs := findOccs_sound term text a (by rw [hx]; exact List.mem_cons_self _ _)
    rw [h a] at hs
    cases hs

/-- C1, as stated, is false: the parser strips the text field before
building spans, so for the line `a.pdf:1: x` (text field ` x`) the record's
spans concatenate to `x`, not to the text field. -/
theorem claim_C1_counterexample :
    ¬ (∀ (maxR : Nat) (st : SearchState) (term line pth : List Char) (n : Nat) (t : List Char),
        parseLine line = some (pth, n, t) →
        st.results.length < maxR →
        (processLineP maxR st term line).results.map (fun r => partsConcat r.parts) =
          st.results.map (fun r => partsConcat r.parts) ++ [t]) := by
  intro h
  have h2 := h 1 initState "q".toList "a.pdf:1: x".toList "a.pdf".toList 1 " x".toList
    (by decide) (by decide)
  revert h2
  decide

/-- C1 (amended): for every line the parser turns into a record, the
record's spans concatenate to the text field after stripping leading and
trailing whitespace, and a stripped line with zero case-insensitive
occurrences of the query yields the single non-highlighted span covering the
whole stripped line. -/
theorem claim_C1_theorem :
    ∀ (maxR : Nat) (st : SearchState) (term line pth : List Char) (n : Nat) (t : List Char),
    parseLine line = some (pth, n, t) →
    st.results.length < maxR →
    (processLineP maxR st term line).results = st.results ++
      [{ filename := basename pth, line_num := n,
         parts := process_parts term (pyStrip t),
         full_path := lookupFP st.file_paths (basename pth) }] ∧
    partsConcat (process_parts term (pyStrip t)) = pyStrip t ∧
    ((∀ i, occursAt term (pyStrip t) i = false) →
      process_parts term (pyStrip t) = [(pyStrip t, false)]) := by
  intro maxR st term line pth n t hparse hlen
  refine ⟨?_, process_parts_concat term (pyStrip t), ?_⟩
  · simp [processLineP, hparse, hlen]
  · intro hno
    rw [process_parts, findOccs_nil term (pyStrip t) hno]
    simp [mkParts]

/-- C1 witness at the line `b.pdf:2:say hi` and query `hi`. -/
theorem claim_C1_witness :
    parseLine "b.pdf:2:say hi".toList = some ("b.pdf".toList, 2, "say hi".toList) ∧
    initState.results.length < MAX_RESULTS ∧
    ((processLineP MAX_RESULTS initState "hi".toList "b.pdf:2:say hi".toList).results =
      initState.results ++
        [{ filename := basename "b.pdf".toList, line_num := 2,
           parts := process_parts "hi".toList (pyStrip "say hi".toList),
           full_path := lookupFP initState.file_paths (basename "b.pdf".toList) }] ∧
      partsConcat (process_parts "hi".toList (pyStrip "say hi".toList)) =
        pyStrip "say hi".toList ∧
      ((∀ i, occursAt "hi".toList (pyStrip "say hi".toList) i = false) →
        process_parts "hi".toList (pyStrip "say hi".toList) =
          [(pyStrip "say hi".toList, false)])) :=
  ⟨by decide, by decide,
    claim_C1_theorem MAX_RESULTS initState "hi".toList "b.pdf:2:say hi".toList
      "b.pdf".toList 2 "say hi".toList (by decide) (by decide)⟩

/-- C2, as stated, is false: with query `aa` and line `aaa` there is a
case-insensitive occurrence at index 1, but position 2 of the line (inside
that occurrence) is not highlighted — the left-to-right non-overlapping scan
of `re.finditer` subsumes the overlapping occurrence. -/
theorem claim_C2_counterexample :
    ¬ (∀ (term text : List Char), term ≠ [] →
        ∀ j, occursAt term text j = true →
          ∀ k, j ≤ k → k < j + term.length →
            spanFlagAt (process_parts term text) k = true) := by
  intro h
  have h2 := h "aa".toList "aaa".toList (by decide) 1 (by decide) 2 (by decide) (by decide)
  revert h2
  decide

/-- C2 (amended): for a nonempty query, every highlighted position lies
inside a case-insensitive literal occurrence of the (escaped) query, every
occurrence starts inside a fully-highlighted occurrence found by the
left-to-right non-overlapping scan, and the spans cover the line exactly
(they concatenate to it, hence no gaps and no overlaps). -/
theorem claim_C2_theorem : ∀ (term text : List Char), term ≠ [] →
    (∀ j, spanFlagAt (process_parts term text) j = true →
      ∃ i, occursAt term text i = true ∧ i ≤ j ∧ j < i + term.length) ∧
    (∀ p, occursAt term text p = true →
      ∃ i, i ≤ p ∧ p < i + term.length ∧
        ∀ k, i ≤ k → k < i + term.length →
          spanFlagAt (process_parts term text) k = true) ∧
    partsConcat (process_parts term text) = text := by
  intro term text hterm
  refine ⟨?_, ?_, process_parts_concat term text⟩
  · intro j hj
    obtain ⟨x, hx, hx1, hx2⟩ := (process_parts_flag term text j).mp hj
    exact ⟨x, findOccs_sound term text x hx, hx1, hx2⟩
  · intro p hp
    obtain ⟨i, hi, hi1, hi2⟩ := findOccs_complete term text hterm p hp
    refine ⟨i, hi1, hi2, ?_⟩
    intro k hk1 hk2
    exact (process_parts_flag term text k).mpr ⟨i, hi, hk1, hk2⟩

/-- C2 witness at query `ab` and line `xABy`. -/
theorem claim_C2_witness :
    ("ab".toList ≠ []) ∧
    ((∀ j, spanFlagAt (process_parts "ab".toList "xABy".toList) j = true →
      ∃ i, occursAt "ab".toList "xABy".toList i = true ∧ i ≤ j ∧
        j < i + "ab".toList.length) ∧
    (∀ p, occursAt "ab".toList "xABy".toList p = true →
      ∃ i, i ≤ p ∧ p < i + "ab".toList.length ∧
        ∀ k, i ≤ k → k < i + "ab".toList.length →
          spanFlagAt (process_parts "ab".toList "xABy".toList) k = true) ∧
    partsConcat (process_parts "ab".toList "xABy".toList) = "xABy".toList) :=
  ⟨by decide, claim_C2_theorem "ab".toList "xABy".toList (by decide)⟩

/-- One parsed line changes only the records and the notification queue:
counters and flags are untouched. -/
theorem processLineP_counters (maxR : Nat) (st : SearchState) (term line : List Char) :
    (processLineP maxR st term line).processed_files = st.processed_files ∧
    (processLineP maxR st term line).total_files = st.total_files ∧
    (processLineP maxR st term line).stop_event = st.stop_event := by
  rcases hp : parseLine line with _ | v
  · simp [processLineP, hp]
  · obtain ⟨pth, n, t⟩ := v
    by_cases h : st.results.length < maxR
    · simp [processLineP, hp, h]
    · simp [processLineP, hp, h]

/-- Parsing a whole batch output changes only records and queue. -/
theorem processResultsP_counters (maxR : Nat) (term : List Char) :
    ∀ (lines : List (List Char)) (st : SearchState),
      (processResultsP maxR st term lines).processed_files = st.processed_files ∧
      (processResultsP maxR st term lines).total_files = st.total_files ∧
      (processResultsP maxR st term lines).stop_event = st.stop_event := by
  intro lines
  induction lines with
  | nil => intro st; exact ⟨rfl, rfl, rfl⟩
  | cons l ls ih =>
    intro st
    have hcons : processResultsP maxR st term (l :: ls) =
        processResultsP maxR (processLineP maxR st term l) term ls := rfl
    rw [hcons]
    obtain ⟨a, b, c⟩ := ih (processLineP maxR st term l)
    obtain ⟨a', b', c'⟩ := processLineP_counters maxR st term l
    exact ⟨a.trans a', b.trans b', c.trans c'⟩

/-- Effect of one returned (non-raising) tool invocation on the store:
`processed_files` advances by the batch size, `total_files` and the stop
flag are untouched, and records change at most when the exit code is 0 and
stdout is nonempty. -/
theorem attempt_batch_ok (term : List Char) (st : SearchState) (batch : List (List Char))
    (rc : Int) (out : List (List Char)) :
    (attempt_batch term st batch (BatchOutcome.ok rc out)).processed_files =
      st.processed_files + batch.length ∧
    (attempt_batch term st batch (BatchOutcome.ok rc out)).total_files = st.total_files ∧
    (attempt_batch term st batch (BatchOutcome.ok rc out)).stop_event = st.stop_event ∧
    (¬ (rc = 0 ∧ out ≠ []) →
      (attempt_batch term st batch (BatchOutcome.ok rc out)).results = st.results) ∧
    (rc = 0 ∧ out ≠ [] →
      (attempt_batch term st batch (BatchOutcome.ok rc out)).results =
        (process_results st term out).results) := by
  by_cases h : rc = 0 ∧ out ≠ []
  · obtain ⟨a, b, c⟩ := processResultsP_counters MAX_RESULTS term out st
    simp only [attempt_batch, if_pos h, process_results]
    exact ⟨by rw [a], b, c, fun hn => absurd h hn, fun _ => trivial⟩
  · simp only [attempt_batch, if_neg h]
    exact ⟨trivial, trivial, trivial, fun _ => trivial, fun hy => absurd hy h⟩

/-- A worker that sees the stop flag set performs nothing. -/
theorem search_worker_stopped (term : List Char) :
    ∀ (pairs : List (List (List Char) × BatchOutcome)) (st : SearchState),
      st.stop_event = true → search_worker term st pairs = st := by
  intro pairs
  cases pairs with
  | nil => intro st _; rfl
  | cons p rest =>
    intro st h
    obtain ⟨b, oc⟩ := p
    simp [search_worker, h]

/-- Running the batch loop over an appended list runs the two parts in
sequence. -/
theorem search_worker_append (term : List Char) :
    ∀ (l1 l2 : List (List (List Char) × BatchOutcome)) (st : SearchState),
      search_worker term st (l1 ++ l2) =
        search_worker term (search_worker term st l1) l2 := by
  intro l1
  induction l1 with
  | nil => intro l2 st; rfl
  | cons p rest ih =>
    intro l2 st
    obtain ⟨b, oc⟩ := p
    by_cases h : st.stop_event = true
    · rw [search_worker_stopped term (((b, oc) :: rest) ++ l2) st h,
        search_worker_stopped term ((b, oc) :: rest) st h,
        search_worker_stopped term l2 st h]
    · simp only [List.cons_append, search_worker, if_neg h]
      exact ih l2 (attempt_batch term st b oc)

/-- The batch loop never decreases `processed_files`. -/
theorem search_worker_processed_ge (term : List Char) :
    ∀ (pairs : List (List (List Char) × BatchOutcome)) (st : SearchState),
      st.processed_files ≤ (search_worker term st pairs).processed_files := by
  intro pairs
  induction pairs with
  | nil => intro st; exact le_refl _
  | cons p rest ih =>
    intro st
    obtain ⟨b, oc⟩ := p
    by_cases h : st.stop_event = true
    · rw [search_worker_stopped term _ st h]
    · simp only [search_worker, if_neg h]
      have h2 : st.processed_files ≤ (attempt_batch term st b oc).processed_files := by
        cases oc with
        | err => exact le_refl _
        | ok rc out =>
          rw [(attempt_batch_ok term st b rc out).1]
          omega
      exact le_trans h2 (ih (attempt_batch term st b oc))

/-- The batch loop advances `processed_files` by at most the total size of
the batches it was given. -/
theorem search_worker_processed_le (term : List Char) :
    ∀ (pairs : List (List (List Char) × BatchOutcome)) (st : SearchState),
      (search_worker term st pairs).processed_files ≤
        st.processed_files + (pairs.map (fun pr => pr.1.length)).sum := by
  intro pairs
  induction pairs with
  | nil => intro st; simp [search_worker]
  | cons p rest ih =>
    intro p_st
    obtain ⟨b, oc⟩ := p
    by_cases h : p_st.stop_event = true
    · rw [search_worker_stopped term _ p_st h]
      omega
    · simp only [search_worker, if_neg h, List.map_cons, List.sum_cons]
      have h1 := ih (attempt_batch term p_st b oc)
      have h2 : (attempt_batch term p_st b oc).processed_files ≤
          p_st.processed_files + b.length := by
        cases oc with
        | err => simp [attempt_batch]
        | ok rc out =>
          rw [(attempt_batch_ok term p_st b rc out).1]
      omega

/-- The batch loop never touches `total_files`. -/
theorem search_worker_total (term : List Char) :
    ∀ (pairs : List (List (List Char) × BatchOutcome)) (st : SearchState),
      (search_worker term st pairs).total_files = st.total_files := by
  intro pairs
  induction pairs with
  | nil => intro st; rfl
  | cons p rest ih =>
    intro st
    obtain ⟨b, oc⟩ := p
    by_cases h : st.stop_event = true
    · rw [search_worker_stopped term _ st h]
    · simp only [search_worker, if_neg h]
      have h2 : (attempt_batch term st b oc).total_files = st.total_files := by
        cases oc with
        | err => rfl
        | ok rc out => exact (attempt_batch_ok term st b rc out).2.1
      exact (ih (attempt_batch term st b oc)).trans h2

/-- The batch sizes of the chunked file list sum to the number of files. -/
theorem batchesF_sum (B : Nat) (hB : 1 ≤ B) :
    ∀ (fuel : Nat) (files : List (List Char)), files.length ≤ fuel →
      ((batchesF fuel B files).map List.length).sum = files.length := by
  intro fuel
  induction fuel with
  | zero =>
    intro files h
    have hnil : files = [] := List.eq_nil_of_length_eq_zero (Nat.le_zero.mp h)
    subst hnil
    simp [batchesF]
  | succ fuel ih =>
    intro files h
    cases files with
    | nil => simp [batchesF]
    | cons f fs =>
      simp only [batchesF, List.map_cons, List.sum_cons]
      rw [ih ((f :: fs).drop B)
        (by simp only [List.length_drop]; simp only [List.length_cons] at h ⊢; omega)]
      simp only [List.length_take, List.length_drop]
      omega

/-- Batch sizes sum to the file count. -/
theorem batches_sum (B : Nat) (hB : 1 ≤ B) (files : List (List Char)) :
    ((batches B files).map List.length).sum = files.length :=
  batchesF_sum B hB files.length files (le_refl _)

/-- A prefix of a list of naturals sums to at most the whole list. -/
theorem take_sum_le (l : List Nat) : ∀ n, (l.take n).sum ≤ l.sum := by
  induction l with
  | nil => intro n; simp
  | cons x xs ih =>
    intro n
    cases n with
    | zero => simp
    | succ m =>
      simp only [List.take_succ_cons, List.sum_cons]
      have := ih m
      omega

/-- Zipping the batches with their outcomes keeps the total batched size at
most the total size. -/
theorem zip_fst_sum_le (l : List (List (List Char))) :
    ∀ (l' : List BatchOutcome),
      ((l.zip l').map (fun pr => pr.1.length)).sum ≤ (l.map List.length).sum := by
  induction l with
  | nil => intro l'; simp
  | cons x xs ih =>
    intro l'
    cases l' with
    | nil => simp
    | cons y ys =>
      simp only [List.zip_cons_cons, List.map_cons, List.sum_cons]
      have := ih ys
      omega

/-- C3, as stated, is false: when the tool invocation raises (failure or
timeout), the `except` branch runs `continue` before the increment, so
`processed_files` is not advanced for that batch. -/
theorem claim_C3_counterexample :
    ¬ (∀ (term : List Char) (st : SearchState) (batch : List (List Char)) (oc : BatchOutcome),
        st.stop_event = false →
        (attempt_batch term st batch oc).processed_files =
          st.processed_files + batch.length) := by
  intro h
  have h2 := h [] initState ["a.pdf".toList] BatchOutcome.err rfl
  revert h2
  decide

/-- C3 (amended): `processed_files` is incremented by the batch size exactly
when the external invocation returns (success or non-zero exit); when it
raises, the batch is skipped without advancing the counter and the worker
continues with the next batch instead of aborting. -/
theorem claim_C3_theorem :
    ∀ (term : List Char) (st : SearchState) (batch : List (List Char))
      (rc : Int) (out : List (List Char))
      (rest : List (List (List Char) × BatchOutcome)),
    st.stop_event = false →
    (attempt_batch term st batch (BatchOutcome.ok rc out)).processed_files =
      st.processed_files + batch.length ∧
    attempt_batch term st batch BatchOutcome.err = st ∧
    search_worker term st ((batch, BatchOutcome.err) :: rest) =
      search_worker term st rest := by
  intro term st batch rc out rest hstop
  refine ⟨(attempt_batch_ok term st batch rc out).1, rfl, ?_⟩
  simp [search_worker, hstop, attempt_batch]

/-- C3 witness: one returned batch of one file advances the counter by 1; a
raising batch leaves the state as it was and the loop continues. -/
theorem claim_C3_witness :
    initState.stop_event = false ∧
    ((attempt_batch "q".toList initState ["a.pdf".toList]
        (BatchOutcome.ok 0 [])).processed_files = initState.processed_files + 1 ∧
      attempt_batch "q".toList initState ["a.pdf".toList] BatchOutcome.err = initState ∧
      search_worker "q".toList initState [(["a.pdf".toList], BatchOutcome.err)] =
        search_worker "q".toList initState []) :=
  ⟨rfl, claim_C3_theorem "q".toList initState ["a.pdf".toList] 0 [] [] rfl⟩

/-- C10: the output of a returned invocation is parsed only when the exit
code is 0 and stdout is nonempty; for a non-zero exit the output (even a
nonempty one) contributes no records, while `processed_files` still
advances by the batch size. -/
theorem claim_C10_theorem :
    ∀ (term : List Char) (st : SearchState) (batch : List (List Char))
      (rc : Int) (out : List (List Char)),
    (attempt_batch term st batch (BatchOutcome.ok rc out)).processed_files =
      st.processed_files + batch.length ∧
    (¬ (rc = 0 ∧ out ≠ []) →
      (attempt_batch term st batch (BatchOutcome.ok rc out)).results = st.results) ∧
    (rc = 0 ∧ out ≠ [] →
      (attempt_batch term st batch (BatchOutcome.ok rc out)).results =
        (process_results st term out).results) := by
  intro term st batch rc out
  obtain ⟨a, _, _, d, e⟩ := attempt_batch_ok term st batch rc out
  exact ⟨a, d, e⟩

/-- C10 witness: exit code 1 with a nonempty matching line contributes no
record but still advances the counter. -/
theorem claim_C10_witness :
    (¬ ((1 : Int) = 0 ∧ (["x.pdf:1:q".toList] : List (List Char)) ≠ [])) ∧
    (attempt_batch "q".toList initState ["a.pdf".toList]
        (BatchOutcome.ok 1 ["x.pdf:1:q".toList])).processed_files =
      initState.processed_files + 1 ∧
    (attempt_batch "q".toList initState ["a.pdf".toList]
        (BatchOutcome.ok 1 ["x.pdf:1:q".toList])).results = initState.results :=
  by
    have h := claim_C10_theorem "q".toList initState ["a.pdf".toList] 1 ["x.pdf:1:q".toList]
    exact ⟨by decide, h.1, h.2.1 (by decide)⟩

/-- One parsed line keeps the record count at or under the cap. -/
theorem processLineP_length (maxR : Nat) (st : SearchState) (term line : List Char)
    (h : st.results.length ≤ maxR) :
    (processLineP maxR st term line).results.length ≤ maxR := by
  rcases hp : parseLine line with _ | v
  · simpa [processLineP, hp] using h
  · obtain ⟨pth, n, t⟩ := v
    by_cases hl : st.results.length < maxR
    · simp only [processLineP, hp]
      rw [if_pos hl]
      simp only [List.length_append, List.length_cons, List.length_nil]
      omega
    · simpa [processLineP, hp, hl] using h

/-- C4: the store never holds more than the cap no matter how many matching
lines are fed in, and with cap 2 three matching lines in one batch leave
exactly the first two, in arrival order. -/
theorem claim_C4_theorem :
    (∀ (maxR : Nat) (st : SearchState) (term : List Char) (lines : List (List Char)),
      st.results.length ≤ maxR →
      (processResultsP maxR st term lines).results.length ≤ maxR) ∧
    ((processResultsP 2 initState "alpha".toList
        ["a.pdf:1:alpha one".toList, "b.pdf:2:ALPHA two".toList,
         "c.pdf:3:alpha three".toList]).results =
      (processResultsP 2 initState "alpha".toList
        ["a.pdf:1:alpha one".toList, "b.pdf:2:ALPHA two".toList]).results ∧
     (processResultsP 2 initState "alpha".toList
        ["a.pdf:1:alpha one".toList, "b.pdf:2:ALPHA two".toList,
         "c.pdf:3:alpha three".toList]).results.length = 2) := by
  constructor
  · intro maxR st term lines
    induction lines generalizing st with
    | nil => intro h; exact h
    | cons l ls ih =>
      intro h
      have hcons : processResultsP maxR st term (l :: ls) =
          processResultsP maxR (processLineP maxR st term l) term ls := rfl
      rw [hcons]
      exact ih (processLineP maxR st term l) (processLineP_length maxR st term l h)
  · exact ⟨by decide, by decide⟩

/-- C4 witness for the capacity bound, at cap 2 with the three-line batch. -/
theorem claim_C4_witness :
    initState.results.length ≤ 2 ∧
    (processResultsP 2 initState "alpha".toList
      ["a.pdf:1:alpha one".toList, "b.pdf:2:ALPHA two".toList,
       "c.pdf:3:alpha three".toList]).results.length ≤ 2 :=
  ⟨by decide,
    claim_C4_theorem.1 2 initState "alpha".toList
      ["a.pdf:1:alpha one".toList, "b.pdf:2:ALPHA two".toList,
       "c.pdf:3:alpha three".toList] (by decide)⟩

/-- C5: within one session (started by `start_search`, which sets
`total_files` once at enumeration time), `processed_files` never exceeds
`total_files` and is non-decreasing along the sequence of batch attempts,
whatever each invocation's outcome. -/
theorem claim_C5_theorem :
    ∀ (listing : List (List Char)) (st : SearchState) (term : List Char)
      (outcomes : List BatchOutcome) (n : Nat),
    (session_run listing st term outcomes n).total_files =
      ((start_search listing st).1).total_files ∧
    (session_run listing st term outcomes n).processed_files ≤
      (session_run listing st term outcomes n).total_files ∧
    (session_run listing st term outcomes n).processed_files ≤
      (session_run listing st term outcomes (n + 1)).processed_files := by
  intro listing st term outcomes n
  simp only [session_run]
  set st0 := (start_search listing st).1 with hst0
  set files := (start_search listing st).2.1 with hfiles
  set pairs := (batches BATCH_SIZE files).zip outcomes with hpairs
  have hp0 : st0.processed_files = 0 := by
    rw [hst0]
    simp [start_search, get_pdf_files]
  have htotv : st0.total_files = files.length := by
    rw [hst0, hfiles]
    simp [start_search, get_pdf_files]
  refine ⟨search_worker_total term (pairs.take n) st0, ?_, ?_⟩
  · rw [search_worker_total term (pairs.take n) st0, htotv]
    have hle := search_worker_processed_le term (pairs.take n) st0
    rw [hp0] at hle
    have hsum : ((pairs.take n).map (fun pr => pr.1.length)).sum ≤ files.length := by
      have h1 : ((pairs.take n).map (fun pr => pr.1.length)).sum ≤
          (pairs.map (fun pr => pr.1.length)).sum := by
        rw [List.map_take]
        exact take_sum_le _ n
      have h2 : (pairs.map (fun pr => pr.1.length)).sum ≤
          ((batches BATCH_SIZE files).map List.length).sum := by
        rw [hpairs]
        exact zip_fst_sum_le _ outcomes
      have h3 : ((batches BATCH_SIZE files).map List.length).sum = files.length :=
        batches_sum BATCH_SIZE (by decide) files
      omega
    omega
  · rw [List.take_succ, search_worker_append]
    exact search_worker_processed_ge term _ (search_worker term st0 (pairs.take n))

/-- With at least one result and a nonnegative page size, one navigation
key keeps the selection inside the result range. -/
theorem nav_step_pos (count : Nat) (vis : Int) (hvis : 0 ≤ vis) (hc : 0 < count)
    (cur : Int) (h1 : 0 ≤ cur) (h2 : cur ≤ (count : Int) - 1) (k : NavKey) :
    0 ≤ nav_step count vis cur k ∧ nav_step count vis cur k ≤ (count : Int) - 1 := by
  have hc' : (1 : Int) ≤ (count : Int) := by exact_mod_cast hc
  cases k <;> simp only [nav_step] <;> (try split) <;> omega

/-- With zero results the selection only ever takes the values `-1` (after
`e`, i.e. `len - 1`) and `0` (the initial value, also `h` and PgUp). -/
theorem nav_step_zero (vis : Int) (hvis : 0 ≤ vis) (cur : Int)
    (h : cur = -1 ∨ cur = 0) (k : NavKey) :
    nav_step 0 vis cur k = -1 ∨ nav_step 0 vis cur k = 0 := by
  rcases h with rfl | rfl <;> cases k <;>
    simp only [nav_step, min_def, max_def, Nat.cast_zero] <;> (try split) <;>
    first
    | omega
    | simp

/-- Any key sequence keeps the selection in range when results exist. -/
theorem nav_run_pos (count : Nat) (vis : Int) (hvis : 0 ≤ vis) (hc : 0 < count) :
    ∀ (keys : List NavKey) (cur : Int), 0 ≤ cur → cur ≤ (count : Int) - 1 →
      0 ≤ nav_run count vis keys cur ∧ nav_run count vis keys cur ≤ (count : Int) - 1 := by
  intro keys
  induction keys with
  | nil => intro cur h1 h2; exact ⟨h1, h2⟩
  | cons k ks ih =>
    intro cur h1 h2
    have hstep := nav_step_pos count vis hvis hc cur h1 h2 k
    exact ih (nav_step count vis cur k) hstep.1 hstep.2

/-- Any key sequence keeps the selection in the two-value set when there are
no results. -/
theorem nav_run_zero (vis : Int) (hvis : 0 ≤ vis) :
    ∀ (keys : List NavKey) (cur : Int), cur = -1 ∨ cur = 0 →
      nav_run 0 vis keys cur = -1 ∨ nav_run 0 vis keys cur = 0 := by
  intro keys
  induction keys with
  | nil => intro cur h; exact h
  | cons k ks ih =>
    intro cur h
    exact ih (nav_step 0 vis cur k) (nav_step_zero vis hvis cur h k)

/-- C6: from the initial selection 0 and a nonnegative page size, any
sequence of Up/Down/PgUp/PgDn/`h`/`e` keys leaves the selection inside
`[0, count - 1]` when `count > 0`, and at `-1` or at the unchanged initial
value `0` when `count = 0`. -/
theorem claim_C6_theorem : ∀ (keys : List NavKey) (count : Nat) (vis : Int), 0 ≤ vis →
    (0 < count → 0 ≤ nav_run count vis keys 0 ∧
      nav_run count vis keys 0 ≤ (count : Int) - 1) ∧
    (count = 0 → nav_run count vis keys 0 = -1 ∨ nav_run count vis keys 0 = 0) := by
  intro keys count vis hvis
  constructor
  · intro hc
    have hc' : (1 : Int) ≤ (count : Int) := by exact_mod_cast hc
    exact nav_run_pos count vis hvis hc keys 0 (le_refl _) (by omega)
  · intro hc
    subst hc
    exact nav_run_zero vis hvis keys 0 (Or.inr rfl)

/-- C6 witness: a concrete key sequence with 5 results and page size 3, and
the same sequence with 0 results. -/
theorem claim_C6_witness :
    ((0 : Int) ≤ 3) ∧
    ((0 < 5 → 0 ≤ nav_run 5 3 [NavKey.endk, NavKey.npage, NavKey.up,
        NavKey.ppage, NavKey.down] 0 ∧
      nav_run 5 3 [NavKey.endk, NavKey.npage, NavKey.up,
        NavKey.ppage, NavKey.down] 0 ≤ ((5 : Nat) : Int) - 1) ∧
    (5 = 0 → nav_run 5 3 [NavKey.endk, NavKey.npage, NavKey.up,
        NavKey.ppage, NavKey.down] 0 = -1 ∨
      nav_run 5 3 [NavKey.endk, NavKey.npage, NavKey.up,
        NavKey.ppage, NavKey.down] 0 = 0)) :=
  ⟨by decide,
    claim_C6_theorem [NavKey.endk, NavKey.npage, NavKey.up, NavKey.ppage, NavKey.down]
      5 3 (by decide)⟩

/-- C7: the code has no session tags — `start_search` even resets the
shared boolean `stop_event` back to `False` — so an old worker's in-flight
batch lands in the new session's store.  Concretely: after `stop_search`
then `start_search` the store is empty, yet one more batch iteration of the
old session's worker (old query `old`, old batch, a match in its output)
deposits a record there. -/
theorem claim_C7_theorem :
    (([StoreOp.stop_op, StoreOp.start_op ["a.pdf".toList]].foldl applyOp
        initState).results = []) ∧
    (([StoreOp.stop_op, StoreOp.start_op ["a.pdf".toList],
       StoreOp.worker_batch "old".toList ["old1.pdf".toList]
         (BatchOutcome.ok 0 ["x.pdf:7:old hit".toList])].foldl applyOp
        initState).results.length = 1) := by
  exact ⟨by decide, by decide⟩

/-- C8: opening a selected record whose stored path no longer exists fails
with the `File not found` message only: `open_result` returns a failure
value instead of raising, the controller stays in results mode with the
selection unchanged, the store is unmodified, and the message is shown as
the transient status. -/
theorem claim_C8_theorem :
    ∀ (fsEx : List Char → Bool) (lo : LaunchOutcome)
      (st : SearchState) (bs : BrowseState) (pth : List Char),
    bs.in_results_mode = true →
    0 ≤ bs.current_line → bs.current_line < (st.results.length : Int) →
    (st.results.getD bs.current_line.toNat default_record).full_path = some pth →
    pth ≠ [] → fsEx pth = false →
    open_result fsEx lo st bs.current_line =
      (st, false, "File not found: ".toList ++ pth) ∧
    (enter_key fsEx lo st bs).1 = st ∧
    (enter_key fsEx lo st bs).2.current_line = bs.current_line ∧
    (enter_key fsEx lo st bs).2.in_results_mode = true ∧
    (enter_key fsEx lo st bs).2.status = some ("File not found: ".toList ++ pth) := by
  intro fsEx lo st bs pth hmode h0 hlt hfp hne hex
  have hguard : ¬ (bs.current_line < 0 ∨ (st.results.length : Int) ≤ bs.current_line) := by
    omega
  have hopen : open_result fsEx lo st bs.current_line =
      (st, false, "File not found: ".toList ++ pth) := by
    rw [open_result, if_neg hguard]
    simp only [hfp, Option.getD_some]
    rw [if_neg hne, if_pos hex]
  have hres : st.results ≠ [] := by
    have hpos : 0 < st.results.length := by omega
    exact List.ne_nil_of_length_pos hpos
  refine ⟨hopen, ?_, ?_, ?_, ?_⟩ <;>
    simp [enter_key, hres, h0, hlt, hopen, hmode]

/-- C8 witness: one stored record pointing at a path the filesystem no
longer has. -/
theorem claim_C8_witness :
    ({ current_line := 0, in_results_mode := true,
       status := none : BrowseState }).in_results_mode = true ∧
    (open_result (fun _ => false) LaunchOutcome.ok
      { initState with results :=
          [{ filename := "a.pdf".toList, line_num := 3, parts := [],
             full_path := some "/gone.pdf".toList }] }
      ({ current_line := 0, in_results_mode := true,
         status := none : BrowseState }).current_line =
      ({ initState with results :=
          [{ filename := "a.pdf".toList, line_num := 3, parts := [],
             full_path := some "/gone.pdf".toList }] }, false,
        "File not found: ".toList ++ "/gone.pdf".toList) ∧
     (enter_key (fun _ => false) LaunchOutcome.ok
        { initState with results :=
            [{ filename := "a.pdf".toList, line_num := 3, parts := [],
               full_path := some "/gone.pdf".toList }] }
        { current_line := 0, in_results_mode := true, status := none }).1 =
      { initState with results :=
          [{ filename := "a.pdf".toList, line_num := 3, parts := [],
             full_path := some "/gone.pdf".toList }] } ∧
     (enter_key (fun _ => false) LaunchOutcome.ok
        { initState with results :=
            [{ filename := "a.pdf".toList, line_num := 3, parts := [],
               full_path := some "/gone.pdf".toList }] }
        { current_line := 0, in_results_mode := true, status := none }).2.current_line =
      ({ current_line := 0, in_results_mode := true,
         status := none : BrowseState }).current_line ∧
     (enter_key (fun _ => false) LaunchOutcome.ok
        { initState with results :=
            [{ filename := "a.pdf".toList, line_num := 3, parts := [],
               full_path := some "/gone.pdf".toList }] }
        { current_line := 0, in_results_mode := true, status := none }).2.in_results_mode =
      true ∧
     (enter_key (fun _ => false) LaunchOutcome.ok
        { initState with results :=
            [{ filename := "a.pdf".toList, line_num := 3, parts := [],
               full_path := some "/gone.pdf".toList }] }
        { current_line := 0, in_results_mode := true, status := none }).2.status =
      some ("File not found: ".toList ++ "/gone.pdf".toList)) :=
  ⟨rfl,
    claim_C8_theorem (fun _ => false) LaunchOutcome.ok
      { initState with results :=
          [{ filename := "a.pdf".toList, line_num := 3, parts := [],
             full_path := some "/gone.pdf".toList }] }
      { current_line := 0, in_results_mode := true, status := none }
      "/gone.pdf".toList rfl (by decide) (by decide) (by decide) (by decide) rfl⟩

/-- C9: calling `open_result` with a negative index or one at or past the
result count returns the failure pair `(False, "Invalid selection")` rather
than raising, and leaves the searcher's state unchanged. -/
theorem claim_C9_theorem :
    ∀ (fsEx : List Char → Bool) (lo : LaunchOutcome) (st : SearchState) (idx : Int),
    (idx < 0 ∨ (st.results.length : Int) ≤ idx) →
    open_result fsEx lo st idx = (st, false, "Invalid selection".toList) := by
  intro fsEx lo st idx h
  rw [open_result, if_pos h]

/-- C9 witness at index `-1` of the fresh store. -/
theorem claim_C9_witness :
    ((-1 : Int) < 0 ∨ ((initState.results.length : Int) ≤ -1)) ∧
    open_result (fun _ => true) LaunchOutcome.ok initState (-1) =
      (initState, false, "Invalid selection".toList) :=
  ⟨Or.inl (by decide),
    claim_C9_theorem (fun _ => true) LaunchOutcome.ok initState (-1)
      (Or.inl (by decide))⟩
